import Mathlib

/-!
# Verification of `deep_research_ui/utils/citations.py`

Shallow embedding of the citation-normalization module.  Strings are
modelled as `List Char`; the two Python regex substitutions
(`re.sub(pattern, replacement, ...)` and
`re.sub(consecutive_pattern, consolidate_and_sort_citations, ...)`)
are modelled as left-to-right scanners with a deterministic matcher for
each pattern.

Both patterns are backtracking-free: in
`【\d+:(\d+)†\w+】` every greedy piece (`\d+`, `\w+`) is
followed by a delimiter character outside its character class, so greedy
maximal munch is the unique match; in
`(<sup>\d+</sup>)(\s*,?\s*<sup>\d+</sup>)+` the pieces `\s*`, `,?`, `\d+`
are each followed by a character outside their class (`<`, resp. `,`/`<`),
and the trailing `+` is at the end of the pattern, so greedy repetition
with no give-back is the unique match.  Hence the deterministic matchers
below are faithful to Python `re` semantics on these patterns.

Character classes are modelled at their ASCII core (`\w` in Python also
accepts non-ASCII word characters, `\s` non-ASCII spaces; no claim under
verification depends on non-ASCII class members).

The OpenTelemetry tracing in the source only sets span attributes and
never alters the returned value, so it is omitted from the embedding.
-/

set_option maxRecDepth 16384

namespace Citations

/-- Model of the regex class `\d` (ASCII decimal digits). -/
def isDigitC (c : Char) : Bool := c.isDigit

/-- Model of the regex class `\w` (ASCII core: alphanumerics and underscore). -/
def isWordC (c : Char) : Bool := c.isAlphanum || c = '_'

/-- Model of the regex class `\s` (ASCII core: space, tab, newline, CR, VT, FF). -/
def isSpaceC (c : Char) : Bool :=
  c = ' ' || c = '\t' || c = '\n' || c = '\r' || c = '\x0b' || c = '\x0c'

/-- Consume one expected literal character. -/
def expectChar (a : Char) : List Char → Option (List Char)
  | [] => none
  | c :: cs => if c = a then some cs else none

/-- Consume a nonempty maximal run of characters satisfying `p`
(the greedy `X+` of the regex); returns the run and the remainder. -/
def span1 (p : Char → Bool) (l : List Char) : Option (List Char × List Char) :=
  if (l.takeWhile p).isEmpty then none else some (l.takeWhile p, l.dropWhile p)

/-- Consume an expected literal string. -/
def expectStr (s : List Char) (l : List Char) : Option (List Char) :=
  if s.isPrefixOf l then some (l.drop s.length) else none

/-- Matcher for the Stage-1 pattern
`pattern = r"【\d+:(\d+)†\w+】"` (citations.py line 35)
anchored at the head of the list.  On success returns the captured
citation index (group 1) and the remainder of the input. -/
def matchMarker (l : List Char) : Option (List Char × List Char) :=
  match expectChar '【' l with
  | none => none
  | some l1 =>
  match span1 isDigitC l1 with
  | none => none
  | some (_, l2) =>
  match expectChar ':' l2 with
  | none => none
  | some l3 =>
  match span1 isDigitC l3 with
  | none => none
  | some (cap, l4) =>
  match expectChar '†' l4 with
  | none => none
  | some l5 =>
  match span1 isWordC l5 with
  | none => none
  | some (_, l6) =>
  match expectChar '】' l6 with
  | none => none
  | some l7 => some (cap, l7)

/-- The characters of `"<sup>"`. -/
def supOpen : List Char := ['<', 's', 'u', 'p', '>']

/-- The characters of `"</sup>"`. -/
def supClose : List Char := ['<', '/', 's', 'u', 'p', '>']

/-- The Stage-1 replacement callback (citations.py lines 38-40):
`f"<sup>{citation_number}</sup>"`. -/
def replacement (cap : List Char) : List Char :=
  supOpen ++ cap ++ supClose

/-- The scanner of `re.sub(pattern, replacement, markdown_content)`
(citations.py line 43): scan left to right, replace each match, resume
after the match.  `fuel` bounds the recursion; `fuel = l.length` always
suffices because every match consumes at least one character. -/
def subMarkers : Nat → List Char → List Char
  | 0, l => l
  | _ + 1, [] => []
  | n + 1, c :: cs =>
    match matchMarker (c :: cs) with
    | some (cap, rest) => replacement cap ++ subMarkers n rest
    | none => c :: subMarkers n cs

/-- Matcher for `<sup>\d+</sup>` anchored at the head; returns the
captured digits and the remainder. -/
def matchSup (l : List Char) : Option (List Char × List Char) :=
  match expectStr supOpen l with
  | none => none
  | some l1 =>
  match span1 isDigitC l1 with
  | none => none
  | some (cap, l2) =>
  match expectStr supClose l2 with
  | none => none
  | some l3 => some (cap, l3)

/-- Matcher for one repetition `\s*,?\s*<sup>\d+</sup>` of the second
group of `consecutive_pattern` (citations.py line 52), anchored at the
head. -/
def matchSep (l : List Char) : Option (List Char × List Char) :=
  let l1 := l.dropWhile isSpaceC
  let l2 := match expectChar ',' l1 with
            | some t => t
            | none => l1
  matchSup (l2.dropWhile isSpaceC)

/-- Greedy repetition `(\s*,?\s*<sup>\d+</sup>)*`: collect as many
repetitions as possible (the pattern's `+` is final, so greedy repetition
never gives back).  `fuel = l.length` always suffices. -/
def matchReps : Nat → List Char → List (List Char) × List Char
  | 0, l => ([], l)
  | n + 1, l =>
    match matchSep l with
    | none => ([], l)
    | some (d, rest) =>
      let (ds, rest') := matchReps n rest
      (d :: ds, rest')

/-- Matcher for the full Stage-2 pattern
`consecutive_pattern = r"(<sup>\d+</sup>)(\s*,?\s*<sup>\d+</sup>)+"`
(citations.py line 52) anchored at the head: a first span followed by at
least one repetition.  Returns the list of captured digit groups of all
spans in the run (in order) and the remainder. -/
def matchRun (l : List Char) : Option (List (List Char) × List Char) :=
  match matchSup l with
  | none => none
  | some (d, rest) =>
    match matchReps rest.length rest with
    | ([], _) => none
    | (ds, rest') => some (d :: ds, rest')

/-- Python `int` on a digit string. -/
def parseNat (l : List Char) : Nat :=
  l.foldl (fun a c => a * 10 + (c.toNat - 48)) 0

/-- The Stage-2 replacement callback `consolidate_and_sort_citations`
(citations.py lines 54-68), applied to the digit groups captured by
`re.findall(r"<sup>(\d+)</sup>", match.group(0))` — which, since the
separators of the run contain no `<sup>` spans, are exactly the digit
groups of the spans of the run, in order.
`sorted(set(int(num) for num in citation_numbers))` is modelled by
`dedup` followed by `insertionSort (· ≤ ·)`: both produce the strictly
ascending enumeration of the set of parsed values. -/
def consolidate_and_sort_citations (ds : List (List Char)) : List Char :=
  let nums := List.insertionSort (· ≤ ·) (ds.map parseNat).dedup
  match nums with
  | [n] => supOpen ++ (Nat.repr n).data ++ supClose
  | _ =>
    supOpen ++
      List.intercalate [','] (nums.map (fun n => (Nat.repr n).data)) ++
      supClose

/-- The scanner of
`re.sub(consecutive_pattern, consolidate_and_sort_citations, converted_text)`
(citations.py line 71).  `fuel = l.length` always suffices. -/
def subRuns : Nat → List Char → List Char
  | 0, l => l
  | _ + 1, [] => []
  | n + 1, c :: cs =>
    match matchRun (c :: cs) with
    | some (ds, rest) => consolidate_and_sort_citations ds ++ subRuns n rest
    | none => c :: subRuns n cs

/-- Stage 1 on a whole text: `re.sub(pattern, replacement, ...)`. -/
def stage1 (l : List Char) : List Char := subMarkers l.length l

/-- Stage 2 on a whole text: `re.sub(consecutive_pattern, ...)`. -/
def stage2 (l : List Char) : List Char := subRuns l.length l

/-- `convert_citations_to_superscript` (citations.py lines 13-78):
Stage 1 (marker replacement) then Stage 2 (run consolidation). -/
def convert_citations_to_superscript (markdown_content : String) : String :=
  String.mk (stage2 (stage1 markdown_content.data))

/-- `text` contains a substring matching the Stage-1 marker pattern
(some suffix has a match at its head). -/
def hasMarker : List Char → Bool
  | [] => false
  | c :: cs => (matchMarker (c :: cs)).isSome || hasMarker cs

/-- `text` contains a substring matching the Stage-2 run pattern. -/
def hasRun : List Char → Bool
  | [] => false
  | c :: cs => (matchRun (c :: cs)).isSome || hasRun cs

/-- The text between two spans matches `\s*,?\s*` entirely: optional
whitespace, at most one comma, optional whitespace. -/
def sepOK (s : List Char) : Bool :=
  let s1 := s.dropWhile isSpaceC
  let s2 := match expectChar ',' s1 with
            | some t => t
            | none => s1
  (s2.dropWhile isSpaceC).isEmpty

/-- `needle` occurs as a contiguous subsequence of `hay`. -/
def containsSeq (needle hay : List Char) : Bool :=
  (List.range (hay.length + 1)).any fun i => needle.isPrefixOf (hay.drop i)

/-- Strictly ascending list of naturals. -/
def ascending : List Nat → Bool
  | a :: b :: t => decide (a < b) && ascending (b :: t)
  | _ => true

/-! ## The annotation helpers -/

/-- Model of the `url_citation` field of an annotation: a url and an
optional title (`None` ↦ `none`; Python's falsy empty string is handled
in `orTitle`). -/
structure UrlCitation where
  url : String
  title : Option String
deriving DecidableEq, Repr

structure Annotation where
  url_citation : UrlCitation
deriving DecidableEq, Repr

/-- Python `ann.url_citation.title or url`: `None` and `""` are falsy. -/
def orTitle (t : Option String) (url : String) : String :=
  match t with
  | none => url
  | some s => if s = "" then url else s

/-- Python-dict assignment `d[k] = v` on an insertion-ordered
association list: an existing key keeps its position and gets the new
value; a new key is appended. -/
def dictInsert (m : List (String × String)) (k v : String) : List (String × String) :=
  if m.any (fun p => p.1 = k) then
    m.map (fun p => if p.1 = k then (k, v) else p)
  else
    m ++ [(k, v)]

/-- `extract_citations_from_annotations` (citations.py lines 81-102),
with the Python dict modelled as an insertion-ordered association
list. -/
def extract_citations_from_annotations (annotations : List Annotation) :
    List (String × String) :=
  annotations.foldl
    (fun citations ann =>
      dictInsert citations ann.url_citation.url
        (orTitle ann.url_citation.title ann.url_citation.url))
    []

/-! ## Abstract descriptions of inputs, used to state the claims -/

/-- The three components of a citation marker `【g:c†tag】`
(spec data model: group index, citation index, source tag). -/
structure MarkerData where
  g : List Char
  c : List Char
  tag : List Char
deriving DecidableEq, Repr

/-- The inline encoding of a marker: `【g:c†tag】`. -/
def renderMarker (m : MarkerData) : List Char :=
  '【' :: (m.g ++ ':' :: (m.c ++ '†' :: (m.tag ++ ['】'])))

/-- A well-formed marker: nonempty digit group index, nonempty digit
citation index, nonempty word-character source tag. -/
def wfMarker (m : MarkerData) : Prop :=
  m.g ≠ [] ∧ (∀ c ∈ m.g, isDigitC c = true) ∧
  m.c ≠ [] ∧ (∀ c ∈ m.c, isDigitC c = true) ∧
  m.tag ≠ [] ∧ (∀ c ∈ m.tag, isWordC c = true)

instance (m : MarkerData) : Decidable (wfMarker m) := by
  unfold wfMarker; infer_instance

/-- A group of directly adjacent markers. -/
def renderGroup (ms : List MarkerData) : List Char :=
  (ms.map renderMarker).flatten

/-- A nonempty digit group. -/
def wfDigits (d : List Char) : Prop := d ≠ [] ∧ ∀ c ∈ d, isDigitC c = true

instance (d : List Char) : Decidable (wfDigits d) := by
  unfold wfDigits; infer_instance

/-- The tail of a Stage-2 run: repetitions `sep ++ <sup>d</sup>`,
followed by the remainder `r` of the text. -/
def renderRunTail (ps : List (List Char × List Char)) (r : List Char) : List Char :=
  ps.foldr (fun sd acc => sd.1 ++ replacement sd.2 ++ acc) r

/-- Prose that is inert for both stages: it contains neither the marker
opening glyph nor the `<` that every superscript span starts with. -/
def inertProse (p : List Char) : Prop := '【' ∉ p ∧ '<' ∉ p

instance (p : List Char) : Decidable (inertProse p) := by
  unfold inertProse; infer_instance

/-- A structured document: leading prose, then groups of adjacent
markers each followed by prose, then a final group and trailing prose. -/
def renderDoc (p0 : List Char) (chunks : List (List MarkerData × List Char))
    (gf : List MarkerData) (pf : List Char) : List Char :=
  p0 ++ (chunks.map (fun gp => renderGroup gp.1 ++ gp.2)).flatten ++ renderGroup gf ++ pf

/-- The normalized output for one marker group: a group of two or more
markers becomes one consolidated span; a smaller group keeps its
Stage-1 spans. -/
def tokenOf (ms : List MarkerData) : List Char :=
  if 2 ≤ ms.length then consolidate_and_sort_citations (ms.map (fun m => m.c))
  else (ms.map (fun m => replacement m.c)).flatten

/-- Well-formedness of an inner chunk: a nonempty group of well-formed
markers, followed by inert prose that breaks the consolidation run. -/
def wfChunk (gp : List MarkerData × List Char) : Prop :=
  gp.1 ≠ [] ∧ (∀ m ∈ gp.1, wfMarker m) ∧ inertProse gp.2 ∧ sepOK gp.2 = false

instance (gp : List MarkerData × List Char) : Decidable (wfChunk gp) := by
  unfold wfChunk; infer_instance

/-- First-occurrence deduplication, parameterized by the keys already
seen. -/
def dedupFirstAux (seen : List String) : List String → List String
  | [] => []
  | a :: t =>
    if a ∈ seen then dedupFirstAux seen t else a :: dedupFirstAux (a :: seen) t

/-- First-occurrence deduplication (the key order of a Python dict). -/
def dedupFirst (l : List String) : List String := dedupFirstAux [] l

/-- Reference rendering of the numbered citation lines, `i`-indexed. -/
def formatLines (i : Nat) : List (String × String) → List String
  | [] => []
  | (url, title) :: t =>
    (toString i ++ ". [" ++ title ++ "](" ++ url ++ ")") :: formatLines (i + 1) t

/-- `format_citations_for_display` (citations.py lines 105-122):
`enumerate(citations.items(), 1)` rendered as `f"{i}. [{title}]({url})"`
lines joined by newlines; empty dict gives a fixed message. -/
def format_citations_for_display (citations : List (String × String)) : String :=
  if citations.isEmpty then "No citations found."
  else
    String.intercalate "\n"
      (citations.enum.map
        (fun p => toString (p.1 + 1) ++ ". [" ++ p.2.2 ++ "](" ++ p.2.1 ++ ")"))

/-! ## Lemmas: building blocks -/

theorem expectChar_cons_self (a : Char) (r : List Char) :
    expectChar a (a :: r) = some r := by
  simp [expectChar]

theorem expectChar_eq_some {a : Char} {l r : List Char}
    (h : expectChar a l = some r) : l = a :: r := by
  cases l with
  | nil => simp [expectChar] at h
  | cons c cs =>
    by_cases hc : c = a
    · simp only [expectChar, if_pos hc, Option.some.injEq] at h
      rw [hc, h]
    · simp [expectChar, hc] at h

theorem takeWhile_all (p : Char → Bool) (l : List Char) :
    ∀ c ∈ l.takeWhile p, p c = true := by
  induction l with
  | nil => simp
  | cons a t ih =>
    by_cases ha : p a
    · intro c hc
      rw [List.takeWhile_cons_of_pos ha] at hc
      rcases List.mem_cons.mp hc with rfl | hc
      · exact ha
      · exact ih c hc
    · intro c hc
      rw [List.takeWhile_cons_of_neg ha] at hc
      simp at hc

theorem span1_eq_some {p : Char → Bool} {l d r : List Char}
    (h : span1 p l = some (d, r)) :
    l = d ++ r ∧ d ≠ [] ∧ ∀ c ∈ d, p c = true := by
  unfold span1 at h
  split at h
  · exact absurd h (by simp)
  · next hne =>
    simp only [Option.some.injEq, Prod.mk.injEq] at h
    obtain ⟨h1, h2⟩ := h
    refine ⟨?_, ?_, ?_⟩
    · rw [← h1, ← h2, List.takeWhile_append_dropWhile]
    · intro hd
      rw [hd] at h1
      rw [h1] at hne
      simp at hne
    · intro c hc
      rw [← h1] at hc
      exact takeWhile_all p l c hc

theorem span1_append {p : Char → Bool} {d : List Char} (hd : d ≠ [])
    (hall : ∀ c ∈ d, p c = true) {e : Char} (he : p e = false) (r : List Char) :
    span1 p (d ++ e :: r) = some (d, e :: r) := by
  have hne : ¬ p e = true := by simp [he]
  unfold span1
  rw [List.takeWhile_append_of_pos hall, List.dropWhile_append_of_pos hall,
      List.takeWhile_cons_of_neg hne, List.dropWhile_cons_of_neg hne]
  simp [hd]

theorem isPrefixOf_append_self : ∀ (s r : List Char), s.isPrefixOf (s ++ r) = true
  | [], _ => by simp [List.isPrefixOf]
  | c :: cs, r => by
    simp [List.isPrefixOf, isPrefixOf_append_self cs r]

theorem eq_append_of_isPrefixOf :
    ∀ {s l : List Char}, s.isPrefixOf l = true → l = s ++ l.drop s.length
  | [], _, _ => by simp
  | c :: cs, [], h => by simp [List.isPrefixOf] at h
  | c :: cs, b :: bs, h => by
    simp only [List.isPrefixOf, Bool.and_eq_true, beq_iff_eq] at h
    obtain ⟨hcb, h2⟩ := h
    subst hcb
    simpa using eq_append_of_isPrefixOf h2

theorem expectStr_append (s r : List Char) : expectStr s (s ++ r) = some r := by
  unfold expectStr
  rw [isPrefixOf_append_self]
  simp

theorem expectStr_eq_some {s l r : List Char} (h : expectStr s l = some r) :
    l = s ++ r := by
  unfold expectStr at h
  split at h
  · next hp =>
    simp only [Option.some.injEq] at h
    rw [← h]
    exact eq_append_of_isPrefixOf hp
  · exact absurd h (by simp)

/-! ## Lemmas: the two pattern matchers -/

theorem matchMarker_append {m : MarkerData} (hm : wfMarker m) (r : List Char) :
    matchMarker (renderMarker m ++ r) = some (m.c, r) := by
  obtain ⟨hg, hgd, hc, hcd, ht, htw⟩ := hm
  have e1 : renderMarker m ++ r
      = '【' :: (m.g ++ ':' :: (m.c ++ '†' :: (m.tag ++ '】' :: r))) := by
    simp [renderMarker]
  rw [e1]
  unfold matchMarker
  simp only [expectChar_cons_self,
    span1_append hg hgd (show isDigitC ':' = false from by decide),
    span1_append hc hcd (show isDigitC '†' = false from by decide),
    span1_append ht htw (show isWordC '】' = false from by decide)]

theorem matchMarker_eq_some {l cap r : List Char}
    (h : matchMarker l = some (cap, r)) :
    ∃ g tag, l = '【' :: (g ++ ':' :: (cap ++ '†' :: (tag ++ '】' :: r))) ∧
      g ≠ [] ∧ (∀ c ∈ g, isDigitC c = true) ∧
      cap ≠ [] ∧ (∀ c ∈ cap, isDigitC c = true) ∧
      tag ≠ [] ∧ (∀ c ∈ tag, isWordC c = true) := by
  unfold matchMarker at h
  cases h1 : expectChar '【' l with
  | none => simp only [h1] at h; simp at h
  | some l1 =>
  simp only [h1] at h
  cases h2 : span1 isDigitC l1 with
  | none => simp only [h2] at h; simp at h
  | some gd =>
  obtain ⟨g, l2⟩ := gd
  simp only [h2] at h
  cases h3 : expectChar ':' l2 with
  | none => simp only [h3] at h; simp at h
  | some l3 =>
  simp only [h3] at h
  cases h4 : span1 isDigitC l3 with
  | none => simp only [h4] at h; simp at h
  | some cd =>
  obtain ⟨cap', l4⟩ := cd
  simp only [h4] at h
  cases h5 : expectChar '†' l4 with
  | none => simp only [h5] at h; simp at h
  | some l5 =>
  simp only [h5] at h
  cases h6 : span1 isWordC l5 with
  | none => simp only [h6] at h; simp at h
  | some td =>
  obtain ⟨tag, l6⟩ := td
  simp only [h6] at h
  cases h7 : expectChar '】' l6 with
  | none => simp only [h7] at h; simp at h
  | some l7 =>
  simp only [h7] at h
  simp only [Option.some.injEq, Prod.mk.injEq] at h
  obtain ⟨hcap, hl7⟩ := h
  subst hcap
  subst hl7
  obtain ⟨e2, hgne, hgall⟩ := span1_eq_some h2
  obtain ⟨e4, hcne, hcall⟩ := span1_eq_some h4
  obtain ⟨e6, htne, htall⟩ := span1_eq_some h6
  refine ⟨g, tag, ?_, hgne, hgall, hcne, hcall, htne, htall⟩
  rw [expectChar_eq_some h1, e2, expectChar_eq_some h3, e4,
    expectChar_eq_some h5, e6, expectChar_eq_some h7]

theorem matchSup_append {d : List Char} (hd : wfDigits d) (r : List Char) :
    matchSup (replacement d ++ r) = some (d, r) := by
  obtain ⟨hne, hdig⟩ := hd
  have e1 : replacement d ++ r = supOpen ++ (d ++ '<' :: ('/' :: 's' :: 'u' :: 'p' :: '>' :: r)) := by
    simp [replacement, supOpen, supClose]
  rw [e1]
  unfold matchSup
  simp only [expectStr_append,
    span1_append hne hdig (show isDigitC '<' = false from by decide)]
  have e2 : ('<' :: ('/' :: 's' :: 'u' :: 'p' :: '>' :: r)) = supClose ++ r := by
    simp [supClose]
  rw [e2]
  simp only [expectStr_append]

theorem matchSup_eq_some {l d r : List Char}
    (h : matchSup l = some (d, r)) :
    l = replacement d ++ r ∧ d ≠ [] ∧ ∀ c ∈ d, isDigitC c = true := by
  unfold matchSup at h
  cases h1 : expectStr supOpen l with
  | none => simp only [h1] at h; simp at h
  | some l1 =>
  simp only [h1] at h
  cases h2 : span1 isDigitC l1 with
  | none => simp only [h2] at h; simp at h
  | some dd =>
  obtain ⟨d', l2⟩ := dd
  simp only [h2] at h
  cases h3 : expectStr supClose l2 with
  | none => simp only [h3] at h; simp at h
  | some l3 =>
  simp only [h3] at h
  simp only [Option.some.injEq, Prod.mk.injEq] at h
  obtain ⟨hd', hl3⟩ := h
  subst hd'
  subst hl3
  obtain ⟨e2, hdne, hdall⟩ := span1_eq_some h2
  refine ⟨?_, hdne, hdall⟩
  rw [expectStr_eq_some h1, e2, expectStr_eq_some h3, replacement]
  simp

theorem matchMarker_cons_ne {c : Char} (hc : c ≠ '【') (t : List Char) :
    matchMarker (c :: t) = none := by
  unfold matchMarker
  simp [expectChar, hc]

theorem matchSup_cons_ne {c : Char} (hc : c ≠ '<') (t : List Char) :
    matchSup (c :: t) = none := by
  unfold matchSup
  have : expectStr supOpen (c :: t) = none := by
    unfold expectStr
    have : supOpen.isPrefixOf (c :: t) = false := by
      simp [supOpen, List.isPrefixOf]
      intro he
      exact absurd he.symm hc
    simp [this]
  simp [this]

theorem matchSup_close (t : List Char) :
    matchSup ('<' :: '/' :: t) = none := by
  unfold matchSup
  have : expectStr supOpen ('<' :: '/' :: t) = none := by
    unfold expectStr
    have : supOpen.isPrefixOf ('<' :: '/' :: t) = false := by
      simp [supOpen, List.isPrefixOf]
    simp [this]
  simp [this]

/-! ## Lemmas: separators and `sepOK` -/

theorem expectChar_nil (a : Char) : expectChar a [] = none := rfl

theorem expectChar_cons_ne {a c : Char} (h : c ≠ a) (t : List Char) :
    expectChar a (c :: t) = none := by
  simp [expectChar, h]

theorem dropWhile_nil_iff {p : Char → Bool} {l : List Char} :
    l.dropWhile p = [] ↔ ∀ c ∈ l, p c = true := by
  induction l with
  | nil => simp
  | cons a t ih =>
    by_cases ha : p a
    · rw [List.dropWhile_cons_of_pos ha]
      simp [ha, ih]
    · rw [List.dropWhile_cons_of_neg ha]
      simp only [List.mem_cons]
      constructor
      · intro h
        simp at h
      · intro h
        exact absurd (h a (Or.inl rfl)) ha

theorem dropWhile_head_false {p : Char → Bool} {l : List Char} {c : Char} {t : List Char}
    (h : l.dropWhile p = c :: t) : p c = false := by
  have hh := List.head?_dropWhile_not p l
  rw [h] at hh
  simpa using hh

theorem mem_of_mem_dropWhile {p : Char → Bool} {l : List Char} {c : Char}
    (h : c ∈ l.dropWhile p) : c ∈ l :=
  List.Sublist.mem h (List.dropWhile_sublist p)

theorem replacement_append_cons (d : List Char) (r : List Char) :
    replacement d ++ r = '<' :: ('s' :: 'u' :: 'p' :: '>' :: (d ++ (supClose ++ r))) := by
  simp [replacement, supOpen]

theorem dropWhile_replacement (d : List Char) (r : List Char) :
    (replacement d ++ r).dropWhile isSpaceC = replacement d ++ r := by
  rw [replacement_append_cons]
  exact List.dropWhile_cons_of_neg (by decide)

theorem matchSup_nil : matchSup [] = none := by decide

/-- A separator matching `\s*,?\s*` entirely, followed by a span, matches
one repetition of the run pattern, capturing the span's digits. -/
theorem matchSep_build {s : List Char} (hs : sepOK s = true) {d : List Char}
    (hd : wfDigits d) (r : List Char) :
    matchSep (s ++ (replacement d ++ r)) = some (d, r) := by
  have hX : (replacement d ++ r).dropWhile isSpaceC = replacement d ++ r :=
    dropWhile_replacement d r
  have hXc : expectChar ',' (replacement d ++ r) = none := by
    rw [replacement_append_cons]
    exact expectChar_cons_ne (by decide) _
  unfold sepOK at hs
  simp only [matchSep]
  cases hs1 : s.dropWhile isSpaceC with
  | nil =>
    have hall : ∀ c ∈ s, isSpaceC c = true := dropWhile_nil_iff.mp hs1
    rw [List.dropWhile_append_of_pos hall, hX, hXc, hX]
    exact matchSup_append hd r
  | cons c t =>
    have hcs : isSpaceC c = false := dropWhile_head_false hs1
    by_cases hc : c = ','
    · subst hc
      simp only [hs1, expectChar_cons_self] at hs
      have htall : ∀ x ∈ t, isSpaceC x = true := by
        rw [List.isEmpty_iff] at hs
        exact dropWhile_nil_iff.mp hs
      have hsplit : s = s.takeWhile isSpaceC ++ (',' :: t) := by
        rw [← hs1, List.takeWhile_append_dropWhile]
      have e1 : s ++ (replacement d ++ r)
          = s.takeWhile isSpaceC ++ (',' :: (t ++ (replacement d ++ r))) := by
        conv_lhs => rw [hsplit]
        simp
      rw [e1, List.dropWhile_append_of_pos (takeWhile_all isSpaceC s),
        List.dropWhile_cons_of_neg (by decide), expectChar_cons_self,
        List.dropWhile_append_of_pos htall, hX]
      exact matchSup_append hd r
    · exfalso
      simp only [hs1, expectChar_cons_ne hc] at hs
      rw [List.dropWhile_cons_of_neg (by simp [hcs])] at hs
      simp at hs

/-- A separator that is not of the form `\s*,?\s*` and contains no `<`
breaks the run: no repetition can match across it. -/
theorem matchSep_break {s : List Char} (hlt : '<' ∉ s) (hs : sepOK s = false)
    (X : List Char) : matchSep (s ++ X) = none := by
  unfold sepOK at hs
  simp only [matchSep]
  cases hs1 : s.dropWhile isSpaceC with
  | nil =>
    exfalso
    simp only [hs1, expectChar_nil] at hs
    simp at hs
  | cons c t =>
    have hcs : isSpaceC c = false := dropWhile_head_false hs1
    have hct : c :: t = s.dropWhile isSpaceC := hs1.symm
    have hmem : ∀ x ∈ c :: t, x ∈ s := by
      intro x hx
      rw [hct] at hx
      exact mem_of_mem_dropWhile hx
    have hdw : (s ++ X).dropWhile isSpaceC = c :: (t ++ X) := by
      rw [List.dropWhile_append]
      rw [hs1]
      simp
    rw [hdw]
    by_cases hc : c = ','
    · subst hc
      rw [expectChar_cons_self]
      simp only [hs1, expectChar_cons_self] at hs
      cases ht1 : t.dropWhile isSpaceC with
      | nil =>
        exfalso
        rw [ht1] at hs
        simp at hs
      | cons e t' =>
        have hes : isSpaceC e = false := dropWhile_head_false ht1
        have he1 : e ∈ t.dropWhile isSpaceC := by
          rw [ht1]; exact List.mem_cons_self e t'
        have hemem : e ∈ s :=
          hmem e (List.mem_cons_of_mem _ (mem_of_mem_dropWhile he1))
        have : (t ++ X).dropWhile isSpaceC = e :: (t' ++ X) := by
          rw [List.dropWhile_append, ht1]
          simp
        rw [this]
        exact matchSup_cons_ne (fun he => hlt (he ▸ hemem)) _
    · rw [expectChar_cons_ne hc]
      rw [List.dropWhile_cons_of_neg (by simp [hcs])]
      have hcmem : c ∈ s := hmem c (List.mem_cons_self c t)
      exact matchSup_cons_ne (fun he => hlt (he ▸ hcmem)) _

/-- Text containing no `<` at all can never start a repetition
(in particular, trailing prose and the empty remainder break runs). -/
theorem matchSep_no_lt {s : List Char} (hlt : '<' ∉ s) : matchSep s = none := by
  simp only [matchSep]
  cases hs1 : s.dropWhile isSpaceC with
  | nil =>
    rw [expectChar_nil]
    simp [matchSup_nil]
  | cons c t =>
    have hcs : isSpaceC c = false := dropWhile_head_false hs1
    have hmem : ∀ x ∈ c :: t, x ∈ s := by
      intro x hx
      rw [← hs1] at hx
      exact mem_of_mem_dropWhile hx
    by_cases hc : c = ','
    · subst hc
      rw [expectChar_cons_self]
      cases ht1 : t.dropWhile isSpaceC with
      | nil => simp [ht1, matchSup_nil]
      | cons e t' =>
        have he1 : e ∈ t.dropWhile isSpaceC := by
          rw [ht1]; exact List.mem_cons_self e t'
        have hemem : e ∈ s :=
          hmem e (List.mem_cons_of_mem _ (mem_of_mem_dropWhile he1))
        exact matchSup_cons_ne (fun he => hlt (he ▸ hemem)) _
    · rw [expectChar_cons_ne hc]
      rw [List.dropWhile_cons_of_neg (by simp [hcs])]
      have hcmem : c ∈ s := hmem c (List.mem_cons_self c t)
      exact matchSup_cons_ne (fun he => hlt (he ▸ hcmem)) _

/-! ## Lemmas: lengths and fuel -/

theorem matchMarker_length {l cap r : List Char}
    (h : matchMarker l = some (cap, r)) : r.length < l.length := by
  obtain ⟨g, tag, e, -⟩ := matchMarker_eq_some h
  subst e
  simp
  omega

theorem matchSup_length {l d r : List Char}
    (h : matchSup l = some (d, r)) : r.length < l.length := by
  obtain ⟨e, -, -⟩ := matchSup_eq_some h
  subst e
  simp [replacement, supOpen, supClose]
  omega

theorem length_dropWhile_le (p : Char → Bool) (l : List Char) :
    (l.dropWhile p).length ≤ l.length :=
  (List.dropWhile_sublist p).length_le

theorem matchSep_length {l d r : List Char}
    (h : matchSep l = some (d, r)) : r.length < l.length := by
  simp only [matchSep] at h
  cases hec : expectChar ',' (l.dropWhile isSpaceC) with
  | none =>
    simp only [hec] at h
    calc r.length < ((l.dropWhile isSpaceC).dropWhile isSpaceC).length :=
          matchSup_length h
      _ ≤ (l.dropWhile isSpaceC).length := length_dropWhile_le _ _
      _ ≤ l.length := length_dropWhile_le _ _
  | some t =>
    simp only [hec] at h
    have he := expectChar_eq_some hec
    have h1 : (',' :: t).length ≤ l.length := by
      rw [← he]; exact length_dropWhile_le _ _
    calc r.length < (t.dropWhile isSpaceC).length := matchSup_length h
      _ ≤ t.length := length_dropWhile_le _ _
      _ < l.length := by simp at h1; omega

theorem matchReps_length : ∀ (n : Nat) (l : List Char),
    (matchReps n l).2.length ≤ l.length
  | 0, l => Nat.le_refl _
  | n + 1, l => by
    simp only [matchReps]
    cases hms : matchSep l with
    | none => simp
    | some dr =>
      obtain ⟨d, rest⟩ := dr
      simp only []
      calc (matchReps n rest).2.length ≤ rest.length := matchReps_length n rest
        _ ≤ l.length := Nat.le_of_lt (matchSep_length hms)

theorem matchSep_nil : matchSep [] = none := matchSep_no_lt (by simp)

theorem matchReps_cons_eq (n : Nat) (l : List Char) :
    matchReps (n + 1) l =
      match matchSep l with
      | none => ([], l)
      | some (d, rest) => (d :: (matchReps n rest).1, (matchReps n rest).2) := rfl

theorem subMarkers_cons_eq (n : Nat) (c : Char) (cs : List Char) :
    subMarkers (n + 1) (c :: cs) =
      match matchMarker (c :: cs) with
      | some (cap, rest) => replacement cap ++ subMarkers n rest
      | none => c :: subMarkers n cs := rfl

theorem subRuns_cons_eq (n : Nat) (c : Char) (cs : List Char) :
    subRuns (n + 1) (c :: cs) =
      match matchRun (c :: cs) with
      | some (ds, rest) => consolidate_and_sort_citations ds ++ subRuns n rest
      | none => c :: subRuns n cs := rfl

theorem matchReps_succ_eq : ∀ (n : Nat) (l : List Char), l.length ≤ n →
    matchReps (n + 1) l = matchReps n l := by
  intro n
  induction n with
  | zero =>
    intro l hl
    have : l = [] := List.eq_nil_of_length_eq_zero (Nat.le_zero.mp hl)
    subst this
    simp [matchReps, matchSep_nil]
  | succ n ih =>
    intro l hl
    show matchReps (n + 1 + 1) l = matchReps (n + 1) l
    cases hms : matchSep l with
    | none =>
      rw [matchReps_cons_eq (n + 1) l, matchReps_cons_eq n l]
      simp only [hms]
    | some dr =>
      obtain ⟨d, rest⟩ := dr
      have hr : rest.length ≤ n := by
        have := matchSep_length hms
        omega
      have e1 : matchReps (n + 1 + 1) l
          = (d :: (matchReps (n + 1) rest).1, (matchReps (n + 1) rest).2) := by
        rw [matchReps_cons_eq]
        simp only [hms]
      have e2 : matchReps (n + 1) l
          = (d :: (matchReps n rest).1, (matchReps n rest).2) := by
        rw [matchReps_cons_eq]
        simp only [hms]
      rw [e1, e2, ih rest hr]

theorem matchReps_fuel {n : Nat} {l : List Char} (h : l.length ≤ n) :
    matchReps n l = matchReps l.length l := by
  induction n, h using Nat.le_induction with
  | base => rfl
  | succ n hn ih => rw [matchReps_succ_eq n l hn, ih]

theorem matchRun_length {l : List Char} {ds : List (List Char)} {r : List Char}
    (h : matchRun l = some (ds, r)) : r.length < l.length := by
  unfold matchRun at h
  cases h1 : matchSup l with
  | none => simp only [h1] at h; simp at h
  | some dr =>
  obtain ⟨d, rest⟩ := dr
  simp only [h1] at h
  cases h2 : matchReps rest.length rest with
  | mk ds' rest' =>
  rw [h2] at h
  cases ds' with
  | nil => simp at h
  | cons d0 ds0 =>
    simp only [Option.some.injEq, Prod.mk.injEq] at h
    obtain ⟨-, hr⟩ := h
    subst hr
    calc rest'.length = (matchReps rest.length rest).2.length := by rw [h2]
      _ ≤ rest.length := matchReps_length _ _
      _ < l.length := matchSup_length h1

theorem subMarkers_succ_eq : ∀ (n : Nat) (l : List Char), l.length ≤ n →
    subMarkers (n + 1) l = subMarkers n l := by
  intro n
  induction n with
  | zero =>
    intro l hl
    have : l = [] := List.eq_nil_of_length_eq_zero (Nat.le_zero.mp hl)
    subst this
    rfl
  | succ n ih =>
    intro l hl
    cases l with
    | nil => rfl
    | cons c cs =>
      show subMarkers (n + 1 + 1) (c :: cs) = subMarkers (n + 1) (c :: cs)
      cases hm : matchMarker (c :: cs) with
      | none =>
        have e1 : subMarkers (n + 1 + 1) (c :: cs) = c :: subMarkers (n + 1) cs := by
          rw [subMarkers_cons_eq]
          simp only [hm]
        have e2 : subMarkers (n + 1) (c :: cs) = c :: subMarkers n cs := by
          rw [subMarkers_cons_eq]
          simp only [hm]
        simp at hl
        rw [e1, e2, ih cs hl]
      | some cr =>
        obtain ⟨cap, rest⟩ := cr
        have hr : rest.length ≤ n := by
          have := matchMarker_length hm
          simp at this hl
          omega
        have e1 : subMarkers (n + 1 + 1) (c :: cs)
            = replacement cap ++ subMarkers (n + 1) rest := by
          rw [subMarkers_cons_eq]
          simp only [hm]
        have e2 : subMarkers (n + 1) (c :: cs)
            = replacement cap ++ subMarkers n rest := by
          rw [subMarkers_cons_eq]
          simp only [hm]
        rw [e1, e2, ih rest hr]

theorem subMarkers_fuel {n : Nat} {l : List Char} (h : l.length ≤ n) :
    subMarkers n l = stage1 l := by
  unfold stage1
  induction n, h using Nat.le_induction with
  | base => rfl
  | succ n hn ih => rw [subMarkers_succ_eq n l hn, ih]

theorem subRuns_succ_eq : ∀ (n : Nat) (l : List Char), l.length ≤ n →
    subRuns (n + 1) l = subRuns n l := by
  intro n
  induction n with
  | zero =>
    intro l hl
    have : l = [] := List.eq_nil_of_length_eq_zero (Nat.le_zero.mp hl)
    subst this
    rfl
  | succ n ih =>
    intro l hl
    cases l with
    | nil => rfl
    | cons c cs =>
      show subRuns (n + 1 + 1) (c :: cs) = subRuns (n + 1) (c :: cs)
      cases hm : matchRun (c :: cs) with
      | none =>
        have e1 : subRuns (n + 1 + 1) (c :: cs) = c :: subRuns (n + 1) cs := by
          rw [subRuns_cons_eq]
          simp only [hm]
        have e2 : subRuns (n + 1) (c :: cs) = c :: subRuns n cs := by
          rw [subRuns_cons_eq]
          simp only [hm]
        simp at hl
        rw [e1, e2, ih cs hl]
      | some dr =>
        obtain ⟨ds, rest⟩ := dr
        have hr : rest.length ≤ n := by
          have := matchRun_length hm
          simp at this hl
          omega
        have e1 : subRuns (n + 1 + 1) (c :: cs)
            = consolidate_and_sort_citations ds ++ subRuns (n + 1) rest := by
          rw [subRuns_cons_eq]
          simp only [hm]
        have e2 : subRuns (n + 1) (c :: cs)
            = consolidate_and_sort_citations ds ++ subRuns n rest := by
          rw [subRuns_cons_eq]
          simp only [hm]
        rw [e1, e2, ih rest hr]

theorem subRuns_fuel {n : Nat} {l : List Char} (h : l.length ≤ n) :
    subRuns n l = stage2 l := by
  unfold stage2
  induction n, h using Nat.le_induction with
  | base => rfl
  | succ n hn ih => rw [subRuns_succ_eq n l hn, ih]

/-! ## Lemmas: one-step unfolding of the two scanners -/

theorem stage1_nil : stage1 [] = [] := rfl

theorem stage1_cons_none {c : Char} {cs : List Char}
    (h : matchMarker (c :: cs) = none) : stage1 (c :: cs) = c :: stage1 cs := by
  show subMarkers (c :: cs).length (c :: cs) = _
  rw [List.length_cons]
  simp only [subMarkers_cons_eq, h]
  rw [subMarkers_fuel (Nat.le_refl _)]

theorem stage1_cons_match {c : Char} {cs cap rest : List Char}
    (h : matchMarker (c :: cs) = some (cap, rest)) :
    stage1 (c :: cs) = replacement cap ++ stage1 rest := by
  show subMarkers (c :: cs).length (c :: cs) = _
  rw [List.length_cons]
  simp only [subMarkers_cons_eq, h]
  have : rest.length ≤ cs.length := by
    have := matchMarker_length h
    simp at this
    omega
  rw [subMarkers_fuel this]

theorem stage2_nil : stage2 [] = [] := rfl

theorem stage2_cons_none {c : Char} {cs : List Char}
    (h : matchRun (c :: cs) = none) : stage2 (c :: cs) = c :: stage2 cs := by
  show subRuns (c :: cs).length (c :: cs) = _
  rw [List.length_cons]
  simp only [subRuns_cons_eq, h]
  rw [subRuns_fuel (Nat.le_refl _)]

theorem stage2_cons_match {c : Char} {cs : List Char} {ds : List (List Char)}
    {rest : List Char} (h : matchRun (c :: cs) = some (ds, rest)) :
    stage2 (c :: cs) = consolidate_and_sort_citations ds ++ stage2 rest := by
  show subRuns (c :: cs).length (c :: cs) = _
  rw [List.length_cons]
  simp only [subRuns_cons_eq, h]
  have : rest.length ≤ cs.length := by
    have := matchRun_length h
    simp at this
    omega
  rw [subRuns_fuel this]

/-! ## Lemmas: scanning over inert text -/

theorem matchRun_cons_ne {c : Char} (hc : c ≠ '<') (t : List Char) :
    matchRun (c :: t) = none := by
  unfold matchRun
  simp only [matchSup_cons_ne hc]

theorem matchRun_close (t : List Char) : matchRun ('<' :: '/' :: t) = none := by
  unfold matchRun
  simp only [matchSup_close]

theorem stage1_skip : ∀ (x : List Char), '【' ∉ x → ∀ (r : List Char),
    stage1 (x ++ r) = x ++ stage1 r
  | [], _, r => by simp
  | c :: x, hx, r => by
    have hc : c ≠ '【' := fun he => hx (he ▸ List.mem_cons_self c x)
    have h1 : matchMarker (c :: (x ++ r)) = none := matchMarker_cons_ne hc _
    rw [List.cons_append, stage1_cons_none h1,
      stage1_skip x (fun hm => hx (List.mem_cons_of_mem _ hm)) r, List.cons_append]

theorem stage2_skip : ∀ (x : List Char), '<' ∉ x → ∀ (r : List Char),
    stage2 (x ++ r) = x ++ stage2 r
  | [], _, r => by simp
  | c :: x, hx, r => by
    have hc : c ≠ '<' := fun he => hx (he ▸ List.mem_cons_self c x)
    have h1 : matchRun (c :: (x ++ r)) = none := matchRun_cons_ne hc _
    rw [List.cons_append, stage2_cons_none h1,
      stage2_skip x (fun hm => hx (List.mem_cons_of_mem _ hm)) r, List.cons_append]

theorem digits_no_lt {d : List Char} (hd : ∀ c ∈ d, isDigitC c = true) : '<' ∉ d := by
  intro hmem
  have := hd '<' hmem
  simp [isDigitC] at this

theorem matchReps_none {r : List Char} (h : matchSep r = none) (n : Nat) :
    matchReps n r = ([], r) := by
  cases n with
  | zero => rfl
  | succ n =>
    rw [matchReps_cons_eq]
    simp only [h]

/-- A single span whose remainder cannot start a repetition is not
consolidated: the scanner copies it unchanged. -/
theorem stage2_lone_sup {d : List Char} (hd : wfDigits d) {r : List Char}
    (hr : matchSep r = none) :
    stage2 (replacement d ++ r) = replacement d ++ stage2 r := by
  have hm : matchRun (replacement d ++ r) = none := by
    unfold matchRun
    simp only [matchSup_append hd, matchReps_none hr]
  have e1 : replacement d ++ r
      = '<' :: (['s', 'u', 'p', '>'] ++ (d ++ (supClose ++ r))) := by
    simp [replacement_append_cons]
  rw [e1] at hm
  rw [e1, stage2_cons_none hm,
    stage2_skip ['s', 'u', 'p', '>'] (by decide) _,
    stage2_skip d (digits_no_lt hd.2) _]
  have e2 : supClose ++ r = '<' :: '/' :: (['s', 'u', 'p', '>'] ++ r) := by
    simp [supClose]
  rw [e2, stage2_cons_none (matchRun_close _)]
  have e3 : '/' :: (['s', 'u', 'p', '>'] ++ r) = ['/', 's', 'u', 'p', '>'] ++ r := by simp
  rw [e3, stage2_skip ['/', 's', 'u', 'p', '>'] (by decide) r]
  simp [replacement, supOpen, supClose]

/-- Greedy repetition collects exactly the spans of a rendered run
tail, stopping at a remainder that cannot start a repetition. -/
theorem matchReps_run : ∀ (ps : List (List Char × List Char)) {r : List Char},
    (∀ sd ∈ ps, sepOK sd.1 = true ∧ wfDigits sd.2) → matchSep r = none →
    ∀ {n : Nat}, (renderRunTail ps r).length ≤ n →
    matchReps n (renderRunTail ps r) = (ps.map Prod.snd, r)
  | [], r, _, hr, n, _ => by
    simp only [renderRunTail, List.foldr_nil, List.map_nil]
    exact matchReps_none hr n
  | (s, d) :: ps, r, hps, hr, n, hn => by
    have hsd := hps (s, d) (List.mem_cons_self _ _)
    have e : renderRunTail ((s, d) :: ps) r
        = s ++ (replacement d ++ renderRunTail ps r) := by
      simp [renderRunTail]
    have hsep : matchSep (renderRunTail ((s, d) :: ps) r)
        = some (d, renderRunTail ps r) := by
      rw [e]
      exact matchSep_build hsd.1 hsd.2 _
    cases n with
    | zero =>
      exfalso
      have h0 : (renderRunTail ((s, d) :: ps) r).length = 0 := Nat.le_zero.mp hn
      rw [e] at h0
      simp [replacement, supOpen, supClose] at h0
    | succ n =>
      rw [matchReps_cons_eq]
      simp only [hsep]
      have hfuel : (renderRunTail ps r).length ≤ n := by
        rw [e] at hn
        simp [replacement, supOpen, supClose] at hn
        omega
      rw [matchReps_run ps (fun sd h => hps sd (List.mem_cons_of_mem _ h)) hr hfuel]
      simp

/-- The full Stage-2 pattern matches a rendered run of two or more
spans, capturing all their digit groups in order. -/
theorem matchRun_run {d0 : List Char} (hd0 : wfDigits d0)
    (ps : List (List Char × List Char))
    (hps : ∀ sd ∈ ps, sepOK sd.1 = true ∧ wfDigits sd.2) (hne : ps ≠ [])
    {r : List Char} (hr : matchSep r = none) :
    matchRun (replacement d0 ++ renderRunTail ps r)
      = some (d0 :: ps.map Prod.snd, r) := by
  unfold matchRun
  simp only [matchSup_append hd0]
  rw [matchReps_run ps hps hr (Nat.le_refl _)]
  cases ps with
  | nil => exact absurd rfl hne
  | cons p ps' => rfl

/-- The scanner consolidates a rendered run at the head of the text. -/
theorem stage2_run {d0 : List Char} (hd0 : wfDigits d0)
    (ps : List (List Char × List Char))
    (hps : ∀ sd ∈ ps, sepOK sd.1 = true ∧ wfDigits sd.2) (hne : ps ≠ [])
    {r : List Char} (hr : matchSep r = none) :
    stage2 (replacement d0 ++ renderRunTail ps r)
      = consolidate_and_sort_citations (d0 :: ps.map Prod.snd) ++ stage2 r := by
  have hm := matchRun_run hd0 ps hps hne hr
  have e1 : replacement d0 ++ renderRunTail ps r
      = '<' :: ('s' :: 'u' :: 'p' :: '>' :: (d0 ++ (supClose ++ renderRunTail ps r))) :=
    replacement_append_cons d0 _
  rw [e1] at hm
  rw [e1]
  exact stage2_cons_match hm

/-! ## Lemmas: Stage 1 on markers and groups -/

theorem stage1_marker {m : MarkerData} (hm : wfMarker m) (r : List Char) :
    stage1 (renderMarker m ++ r) = replacement m.c ++ stage1 r := by
  have hmm := matchMarker_append hm r
  have e : renderMarker m ++ r
      = '【' :: ((m.g ++ ':' :: (m.c ++ '†' :: (m.tag ++ ['】']))) ++ r) := by
    simp [renderMarker]
  rw [e] at hmm
  rw [e]
  exact stage1_cons_match hmm

theorem stage1_group : ∀ (ms : List MarkerData), (∀ m ∈ ms, wfMarker m) →
    ∀ (r : List Char),
    stage1 (renderGroup ms ++ r) = (ms.map (fun m => replacement m.c)).flatten ++ stage1 r
  | [], _, r => by simp [renderGroup]
  | m :: ms, hms, r => by
    have e : renderGroup (m :: ms) ++ r = renderMarker m ++ (renderGroup ms ++ r) := by
      simp [renderGroup]
    rw [e, stage1_marker (hms m (List.mem_cons_self _ _)),
      stage1_group ms (fun x hx => hms x (List.mem_cons_of_mem _ hx)) r]
    simp

/-! ## Lemmas: whole-document normalization -/

theorem wfMarker_digits {m : MarkerData} (hm : wfMarker m) : wfDigits m.c :=
  ⟨hm.2.2.1, hm.2.2.2.1⟩

theorem flatten_replacements : ∀ (ms : List MarkerData) (r : List Char),
    (ms.map (fun m => replacement m.c)).flatten ++ r
      = renderRunTail (ms.map (fun m => (([] : List Char), m.c))) r
  | [], r => by simp [renderRunTail]
  | m :: ms, r => by
    have e1 : ((m :: ms).map (fun x => replacement x.c)).flatten ++ r
        = replacement m.c ++ ((ms.map (fun x => replacement x.c)).flatten ++ r) := by
      simp
    rw [e1, flatten_replacements ms r]
    simp [renderRunTail]

/-- Stage 2 on the Stage-1 image of one marker group followed by text
that cannot extend the run. -/
theorem stage2_group (ms : List MarkerData) (hms : ∀ m ∈ ms, wfMarker m)
    {X : List Char} (hX : matchSep X = none) :
    stage2 ((ms.map (fun m => replacement m.c)).flatten ++ X)
      = tokenOf ms ++ stage2 X := by
  match ms with
  | [] => simp [tokenOf]
  | [m] =>
    have e : ((([m] : List MarkerData).map (fun m => replacement m.c)).flatten ++ X)
        = replacement m.c ++ X := by simp
    rw [e, stage2_lone_sup (wfMarker_digits (hms m (by simp))) hX]
    simp [tokenOf]
  | m0 :: m1 :: ms' =>
    have hps : ∀ sd ∈ ([], m1.c) :: ms'.map (fun m => (([] : List Char), m.c)),
        sepOK sd.1 = true ∧ wfDigits sd.2 := by
      intro sd hsd
      rcases List.mem_cons.mp hsd with rfl | hsd
      · refine ⟨?_, wfMarker_digits (hms m1 (by simp))⟩
        show sepOK ([] : List Char) = true
        decide
      · obtain ⟨m, hm, rfl⟩ := List.mem_map.mp hsd
        refine ⟨?_, wfMarker_digits (hms m (by simp [hm]))⟩
        show sepOK ([] : List Char) = true
        decide
    rw [flatten_replacements]
    simp only [List.map_cons]
    have e : renderRunTail (([], m0.c) :: ([], m1.c) :: ms'.map (fun m => (([] : List Char), m.c))) X
        = replacement m0.c ++ renderRunTail (([], m1.c) :: ms'.map (fun m => (([] : List Char), m.c))) X := by
      simp [renderRunTail]
    rw [e, stage2_run (wfMarker_digits (hms m0 (by simp)))
      (([], m1.c) :: ms'.map (fun m => (([] : List Char), m.c)))
      hps (by simp) hX]
    have etok : tokenOf (m0 :: m1 :: ms')
        = consolidate_and_sort_citations ((m0 :: m1 :: ms').map (fun m => m.c)) := by
      unfold tokenOf
      rw [if_pos (by simp)]
    have eargs : (m0.c :: (([], m1.c) :: ms'.map (fun m => (([] : List Char), m.c))).map Prod.snd)
        = (m0 :: m1 :: ms').map (fun m => m.c) := by
      simp
    rw [eargs, etok]

/-- Stage 2 over a list of chunks (Stage-1 image), each ending in prose
that breaks the run grammar. -/
theorem stage2_chunks : ∀ (chunks : List (List MarkerData × List Char)),
    (∀ gp ∈ chunks, (∀ m ∈ gp.1, wfMarker m) ∧ inertProse gp.2 ∧ sepOK gp.2 = false) →
    ∀ (R : List Char),
    stage2 ((chunks.map
        (fun gp => (gp.1.map (fun m => replacement m.c)).flatten ++ gp.2)).flatten ++ R)
      = (chunks.map (fun gp => tokenOf gp.1 ++ gp.2)).flatten ++ stage2 R
  | [], _, R => by simp
  | (g, p) :: chunks, hch, R => by
    obtain ⟨hg, hp, hsep⟩ := hch (g, p) (List.mem_cons_self _ _)
    have e : ((((g, p) :: chunks).map
        (fun gp => (gp.1.map (fun m => replacement m.c)).flatten ++ gp.2)).flatten ++ R)
        = (g.map (fun m => replacement m.c)).flatten ++
          (p ++ ((chunks.map
            (fun gp => (gp.1.map (fun m => replacement m.c)).flatten ++ gp.2)).flatten ++ R)) := by
      simp
    rw [e, stage2_group g hg (matchSep_break hp.2 hsep _),
      stage2_skip p hp.2,
      stage2_chunks chunks (fun gp h => hch gp (List.mem_cons_of_mem _ h)) R]
    simp

/-- Stage 1 over a list of chunks. -/
theorem stage1_chunks : ∀ (chunks : List (List MarkerData × List Char)),
    (∀ gp ∈ chunks, (∀ m ∈ gp.1, wfMarker m) ∧ inertProse gp.2) →
    ∀ (r : List Char),
    stage1 ((chunks.map (fun gp => renderGroup gp.1 ++ gp.2)).flatten ++ r)
      = (chunks.map
          (fun gp => (gp.1.map (fun m => replacement m.c)).flatten ++ gp.2)).flatten
        ++ stage1 r
  | [], _, r => by simp
  | (g, p) :: chunks, hch, r => by
    obtain ⟨hg, hp⟩ := hch (g, p) (List.mem_cons_self _ _)
    have e : ((((g, p) :: chunks).map (fun gp => renderGroup gp.1 ++ gp.2)).flatten ++ r)
        = renderGroup g ++
          (p ++ ((chunks.map (fun gp => renderGroup gp.1 ++ gp.2)).flatten ++ r)) := by
      simp
    rw [e, stage1_group g hg, stage1_skip p hp.1,
      stage1_chunks chunks (fun gp h => hch gp (List.mem_cons_of_mem _ h)) r]
    simp

theorem stage1_inert {p : List Char} (hp : '【' ∉ p) : stage1 p = p := by
  have := stage1_skip p hp []
  simpa [stage1_nil] using this

theorem stage2_inert {p : List Char} (hp : '<' ∉ p) : stage2 p = p := by
  have := stage2_skip p hp []
  simpa [stage2_nil] using this

/-- Full normalization of a structured document. -/
theorem convert_doc (p0 : List Char) (hp0 : inertProse p0)
    (chunks : List (List MarkerData × List Char))
    (hch : ∀ gp ∈ chunks, (∀ m ∈ gp.1, wfMarker m) ∧ inertProse gp.2 ∧ sepOK gp.2 = false)
    (gf : List MarkerData) (hgf : ∀ m ∈ gf, wfMarker m)
    (pf : List Char) (hpf : inertProse pf) :
    stage2 (stage1 (renderDoc p0 chunks gf pf))
      = p0 ++ (chunks.map (fun gp => tokenOf gp.1 ++ gp.2)).flatten
        ++ tokenOf gf ++ pf := by
  have h1 : stage1 (renderDoc p0 chunks gf pf)
      = p0 ++ ((chunks.map
          (fun gp => (gp.1.map (fun m => replacement m.c)).flatten ++ gp.2)).flatten
        ++ ((gf.map (fun m => replacement m.c)).flatten ++ pf)) := by
    unfold renderDoc
    rw [List.append_assoc, List.append_assoc, stage1_skip p0 hp0.1,
      stage1_chunks chunks (fun gp h => ⟨(hch gp h).1, (hch gp h).2.1⟩),
      stage1_group gf hgf, stage1_inert hpf.1]
  rw [h1, stage2_skip p0 hp0.2,
    stage2_chunks chunks (fun gp h => ⟨(hch gp h).1, (hch gp h).2⟩),
    stage2_group gf hgf (matchSep_no_lt hpf.2), stage2_inert hpf.2]
  simp

/-! ## Lemmas: the consolidation callback -/

theorem ascending_of_sorted_nodup : ∀ {l : List Nat},
    List.Sorted (· ≤ ·) l → l.Nodup → ascending l = true
  | [], _, _ => rfl
  | [_], _, _ => rfl
  | a :: b :: t, hs, hn => by
    rw [List.sorted_cons] at hs
    rw [List.nodup_cons] at hn
    have hab : a ≤ b := hs.1 b (by simp)
    have hne : a ≠ b := fun he => hn.1 (he ▸ List.mem_cons_self b t)
    have htail : ascending (b :: t) = true :=
      ascending_of_sorted_nodup hs.2 hn.2
    simp [ascending, htail]
    omega

theorem intercalate_single (x : List Char) : List.intercalate [','] [x] = x := by
  simp [List.intercalate]

/-- What `consolidate_and_sort_citations` produces, characterized
abstractly: one span whose integers are exactly the parsed integers of
the input groups, deduplicated and in strictly ascending order. -/
theorem consolidate_spec (ds : List (List Char)) (hne : ds ≠ []) :
    ∃ ns : List Nat, ns ≠ [] ∧ ascending ns = true ∧
      (∀ n, n ∈ ns ↔ n ∈ ds.map parseNat) ∧
      consolidate_and_sort_citations ds
        = supOpen ++ List.intercalate [',']
            (ns.map (fun n => (Nat.repr n).data)) ++ supClose := by
  refine ⟨List.insertionSort (· ≤ ·) (ds.map parseNat).dedup, ?_, ?_, ?_, ?_⟩
  · intro h0
    have hperm := List.perm_insertionSort (· ≤ ·) (ds.map parseNat).dedup
    rw [h0] at hperm
    have hd0 : (ds.map parseNat).dedup = [] := (List.Perm.symm hperm).eq_nil
    cases hm : ds.map parseNat with
    | nil => exact hne (List.map_eq_nil_iff.mp hm)
    | cons a t =>
      have : a ∈ (ds.map parseNat).dedup := by
        rw [List.mem_dedup, hm]
        simp
      rw [hd0] at this
      simp at this
  · apply ascending_of_sorted_nodup
    · exact List.sorted_insertionSort _ _
    · exact (List.perm_insertionSort _ _).symm.nodup (List.nodup_dedup _)
  · intro n
    rw [List.Perm.mem_iff (List.perm_insertionSort _ _), List.mem_dedup]
  · simp only [consolidate_and_sort_citations]
    cases hsort : List.insertionSort (· ≤ ·) (ds.map parseNat).dedup with
    | nil => simp
    | cons n t =>
      cases t with
      | nil => simp [intercalate_single]
      | cons b t' => rfl

/-! ## Lemmas: the annotation registry -/

theorem lookup_map_ne (m : List (String × String)) (k v : String) {u : String}
    (h : u ≠ k) :
    List.lookup u (m.map (fun p => if p.1 = k then (k, v) else p))
      = List.lookup u m := by
  induction m with
  | nil => rfl
  | cons p m ih =>
    obtain ⟨pk, pv⟩ := p
    by_cases hpk : pk = k
    · subst hpk
      simp only [List.map_cons, if_pos rfl, List.lookup_cons]
      have hne : (u == pk) = false := by simpa using h
      simp [List.lookup_cons, hne, ih]
    · simp only [List.map_cons, if_neg hpk, List.lookup_cons]
      by_cases hpu : u = pk
      · simp [hpu]
      · have hne : (u == pk) = false := by simpa using hpu
        simp [hne, ih]

theorem lookup_map_self (m : List (String × String)) (k v : String)
    (hany : m.any (fun p => p.1 = k) = true) :
    List.lookup k (m.map (fun p => if p.1 = k then (k, v) else p)) = some v := by
  induction m with
  | nil => simp at hany
  | cons p m ih =>
    obtain ⟨pk, pv⟩ := p
    by_cases hpk : pk = k
    · subst hpk
      simp only [List.map_cons, if_pos rfl, List.lookup_cons]
      simp
    · simp only [List.any_cons] at hany
      have : m.any (fun p => p.1 = k) = true := by
        rcases Bool.or_eq_true_iff.mp hany with h1 | h2
        · exact absurd (of_decide_eq_true h1) hpk
        · exact h2
      simp only [List.map_cons, if_neg hpk, List.lookup_cons]
      have hne : (k == pk) = false := beq_eq_false_iff_ne.mpr (fun he => hpk he.symm)
      simp [hne, ih this]

theorem lookup_append_single (m : List (String × String)) (k v u : String) :
    List.lookup u (m ++ [(k, v)])
      = match List.lookup u m with
        | some w => some w
        | none => if u = k then some v else none := by
  induction m with
  | nil =>
    simp only [List.nil_append, List.lookup_cons, List.lookup_nil]
    by_cases huk : u = k
    · simp [huk]
    · have hne : (u == k) = false := by simpa using huk
      simp [hne, huk]
  | cons p m ih =>
    obtain ⟨pk, pv⟩ := p
    simp only [List.cons_append, List.lookup_cons]
    by_cases hpu : u = pk
    · simp [hpu]
    · have hne : (u == pk) = false := by simpa using hpu
      simp [hne, ih]

theorem lookup_none_of_not_any (m : List (String × String)) (k : String)
    (h : m.any (fun p => p.1 = k) = false) : List.lookup k m = none := by
  induction m with
  | nil => rfl
  | cons p m ih =>
    obtain ⟨pk, pv⟩ := p
    simp only [List.any_cons, Bool.or_eq_false_iff] at h
    have hpk : pk ≠ k := by
      intro he
      rw [he] at h
      simp at h
    rw [List.lookup_cons]
    have hne : (k == pk) = false := beq_eq_false_iff_ne.mpr (fun he => hpk he.symm)
    simp [hne, ih h.2]

/-- Python dict assignment, seen through lookup: the new key maps to the
new value, everything else is unchanged. -/
theorem lookup_dictInsert (m : List (String × String)) (k v u : String) :
    List.lookup u (dictInsert m k v) = if u = k then some v else List.lookup u m := by
  unfold dictInsert
  by_cases hany : m.any (fun p => p.1 = k) = true
  · rw [if_pos hany]
    by_cases huk : u = k
    · subst huk
      rw [if_pos rfl]
      exact lookup_map_self m u v hany
    · rw [if_neg huk]
      exact lookup_map_ne m k v huk
  · rw [if_neg hany, lookup_append_single]
    by_cases huk : u = k
    · subst huk
      rw [lookup_none_of_not_any m u (Bool.eq_false_iff.mpr hany)]
    · cases h : List.lookup u m with
      | none => simp [huk]
      | some w => simp [huk]

theorem any_key_iff (m : List (String × String)) (k : String) :
    m.any (fun p => p.1 = k) = true ↔ k ∈ m.map Prod.fst := by
  rw [List.any_eq_true]
  simp only [List.mem_map, decide_eq_true_eq]

theorem dictInsert_keys (m : List (String × String)) (k v : String) :
    (dictInsert m k v).map Prod.fst
      = if k ∈ m.map Prod.fst then m.map Prod.fst else m.map Prod.fst ++ [k] := by
  unfold dictInsert
  by_cases hany : m.any (fun p => p.1 = k) = true
  · rw [if_pos hany, if_pos ((any_key_iff m k).mp hany)]
    rw [List.map_map]
    apply List.map_congr_left
    intro p _
    by_cases hpk : p.1 = k
    · simp [hpk]
    · simp [hpk]
  · rw [if_neg hany, if_neg (fun hm => hany ((any_key_iff m k).mpr hm))]
    simp

theorem dedupFirstAux_congr : ∀ (us : List String) (s1 s2 : List String),
    (∀ x, x ∈ s1 ↔ x ∈ s2) → dedupFirstAux s1 us = dedupFirstAux s2 us
  | [], _, _, _ => rfl
  | u :: us, s1, s2, h => by
    simp only [dedupFirstAux]
    by_cases hu : u ∈ s1
    · rw [if_pos hu, if_pos ((h u).mp hu), dedupFirstAux_congr us s1 s2 h]
    · rw [if_neg hu, if_neg (fun hm => hu ((h u).mpr hm))]
      rw [dedupFirstAux_congr us (u :: s1) (u :: s2) (by intro x; simp [h x])]

theorem extract_keys_aux : ∀ (anns : List Annotation) (m : List (String × String)),
    (anns.foldl
      (fun citations ann =>
        dictInsert citations ann.url_citation.url
          (orTitle ann.url_citation.title ann.url_citation.url)) m).map Prod.fst
      = m.map Prod.fst
        ++ dedupFirstAux (m.map Prod.fst) (anns.map (fun a => a.url_citation.url))
  | [], m => by simp [dedupFirstAux]
  | a :: anns, m => by
    rw [List.foldl_cons, extract_keys_aux anns _]
    rw [dictInsert_keys]
    simp only [List.map_cons, dedupFirstAux]
    by_cases hmem : a.url_citation.url ∈ m.map Prod.fst
    · rw [if_pos hmem, if_pos hmem]
    · rw [if_neg hmem, if_neg hmem]
      rw [dedupFirstAux_congr (anns.map (fun a => a.url_citation.url))
        (m.map Prod.fst ++ [a.url_citation.url]) (a.url_citation.url :: m.map Prod.fst)
        (by intro x; simp; tauto)]
      simp

theorem dedupFirstAux_nodup : ∀ (us seen : List String),
    (dedupFirstAux seen us).Nodup ∧ ∀ x ∈ dedupFirstAux seen us, x ∉ seen
  | [], seen => by simp [dedupFirstAux]
  | u :: us, seen => by
    simp only [dedupFirstAux]
    by_cases hu : u ∈ seen
    · rw [if_pos hu]
      exact dedupFirstAux_nodup us seen
    · rw [if_neg hu]
      obtain ⟨hnd, hnin⟩ := dedupFirstAux_nodup us (u :: seen)
      constructor
      · rw [List.nodup_cons]
        refine ⟨fun hm => ?_, hnd⟩
        exact hnin u hm (List.mem_cons_self u seen)
      · intro x hx
        rcases List.mem_cons.mp hx with rfl | hx
        · exact hu
        · exact fun hm => hnin x hx (List.mem_cons_of_mem _ hm)

/-! ## Lemmas: display formatting -/

theorem enumFrom_formatLines : ∀ (cs : List (String × String)) (k : Nat),
    (cs.enumFrom k).map
        (fun p => toString (p.1 + 1) ++ ". [" ++ p.2.2 ++ "](" ++ p.2.1 ++ ")")
      = formatLines (k + 1) cs
  | [], _ => rfl
  | (url, title) :: t, k => by
    simp only [List.enumFrom, List.map_cons, formatLines]
    rw [enumFrom_formatLines t (k + 1)]

/-! ## Lemmas: decimal rendering, identity cases, captured digits -/

theorem convert_eq (s : String) :
    convert_citations_to_superscript s = String.mk (stage2 (stage1 s.data)) := rfl

theorem digitChar_digit {m : Nat} (h : m < 10) :
    isDigitC (Nat.digitChar m) = true := by
  interval_cases m <;> decide

theorem toDigitsCore_digits : ∀ (fuel n : Nat) (ds : List Char),
    (∀ c ∈ ds, isDigitC c = true) →
    ∀ c ∈ Nat.toDigitsCore 10 fuel n ds, isDigitC c = true
  | 0, _, _, hds => hds
  | fuel + 1, n, ds, hds => by
    simp only [Nat.toDigitsCore]
    have hd : isDigitC (Nat.digitChar (n % 10)) = true :=
      digitChar_digit (Nat.mod_lt _ (by omega))
    have hcons : ∀ c ∈ Nat.digitChar (n % 10) :: ds, isDigitC c = true := by
      intro c hc
      rcases List.mem_cons.mp hc with rfl | hc
      · exact hd
      · exact hds c hc
    by_cases h0 : n / 10 = 0
    · rw [if_pos h0]
      exact hcons
    · rw [if_neg h0]
      exact toDigitsCore_digits fuel (n / 10) _ hcons

theorem toDigitsCore_ne_nil : ∀ (fuel n : Nat) (ds : List Char), ds ≠ [] →
    Nat.toDigitsCore 10 fuel n ds ≠ []
  | 0, _, _, h => h
  | fuel + 1, n, ds, h => by
    simp only [Nat.toDigitsCore]
    by_cases h0 : n / 10 = 0
    · rw [if_pos h0]
      simp
    · rw [if_neg h0]
      exact toDigitsCore_ne_nil fuel (n / 10) _ (by simp)

/-- The decimal rendering of any natural number is a nonempty digit
string: indices have no enforced upper bound. -/
theorem repr_wfDigits (n : Nat) : wfDigits (Nat.repr n).data := by
  have e : (Nat.repr n).data = Nat.toDigits 10 n := rfl
  rw [e]
  unfold Nat.toDigits
  constructor
  · simp only [Nat.toDigitsCore]
    by_cases h0 : n / 10 = 0
    · rw [if_pos h0]
      simp
    · rw [if_neg h0]
      exact toDigitsCore_ne_nil _ _ _ (by simp)
  · exact toDigitsCore_digits (n + 1) n [] (by simp)

theorem stage1_id_of_no_marker : ∀ {l : List Char}, hasMarker l = false → stage1 l = l
  | [], _ => rfl
  | c :: cs, h => by
    simp only [hasMarker, Bool.or_eq_false_iff] at h
    have hm : matchMarker (c :: cs) = none := by
      cases hmm : matchMarker (c :: cs) with
      | none => rfl
      | some x =>
        rw [hmm] at h
        simp at h
    rw [stage1_cons_none hm, stage1_id_of_no_marker h.2]

theorem stage2_id_of_no_run : ∀ {l : List Char}, hasRun l = false → stage2 l = l
  | [], _ => rfl
  | c :: cs, h => by
    simp only [hasRun, Bool.or_eq_false_iff] at h
    have hm : matchRun (c :: cs) = none := by
      cases hmm : matchRun (c :: cs) with
      | none => rfl
      | some x =>
        rw [hmm] at h
        simp at h
    rw [stage2_cons_none hm, stage2_id_of_no_run h.2]

theorem matchSep_digits {l d r : List Char} (h : matchSep l = some (d, r)) :
    d ≠ [] ∧ ∀ c ∈ d, isDigitC c = true := by
  simp only [matchSep] at h
  cases hec : expectChar ',' (l.dropWhile isSpaceC) with
  | none =>
    simp only [hec] at h
    exact ⟨(matchSup_eq_some h).2.1, (matchSup_eq_some h).2.2⟩
  | some t =>
    simp only [hec] at h
    exact ⟨(matchSup_eq_some h).2.1, (matchSup_eq_some h).2.2⟩

theorem matchReps_digits : ∀ (n : Nat) (l : List Char),
    ∀ d ∈ (matchReps n l).1, d ≠ [] ∧ ∀ c ∈ d, isDigitC c = true
  | 0, _, d, hd => by simp [matchReps] at hd
  | n + 1, l, d, hd => by
    rw [matchReps_cons_eq] at hd
    cases hms : matchSep l with
    | none =>
      rw [hms] at hd
      simp at hd
    | some dr =>
      obtain ⟨d0, rest⟩ := dr
      simp only [hms] at hd
      rcases List.mem_cons.mp hd with rfl | hd
      · exact matchSep_digits hms
      · exact matchReps_digits n rest d hd

/-- Only pure digit groups are ever captured by the run pattern. -/
theorem matchRun_digits {l : List Char} {ds : List (List Char)} {r : List Char}
    (h : matchRun l = some (ds, r)) :
    ∀ d ∈ ds, d ≠ [] ∧ ∀ c ∈ d, isDigitC c = true := by
  unfold matchRun at h
  cases h1 : matchSup l with
  | none =>
    simp only [h1] at h
    simp at h
  | some dr =>
  obtain ⟨d0, rest⟩ := dr
  simp only [h1] at h
  cases h2 : matchReps rest.length rest with
  | mk ds' rest' =>
  rw [h2] at h
  cases ds' with
  | nil => simp at h
  | cons e es =>
    simp only [Option.some.injEq, Prod.mk.injEq] at h
    obtain ⟨hds, -⟩ := h
    subst hds
    intro d hd
    rcases List.mem_cons.mp hd with rfl | hd
    · exact ⟨(matchSup_eq_some h1).2.1, (matchSup_eq_some h1).2.2⟩
    · have := matchReps_digits rest.length rest d
      rw [h2] at this
      exact this hd

theorem no_open_replacement {d : List Char} (hd : ∀ c ∈ d, isDigitC c = true) :
    '【' ∉ replacement d := by
  intro hm
  unfold replacement at hm
  rcases List.mem_append.mp hm with hm | hm
  · rcases List.mem_append.mp hm with hm | hm
    · simp [supOpen] at hm
    · have := hd _ hm
      simp [isDigitC] at this
  · simp [supClose] at hm

/-! ## Claim theorems -/

/-- C1: every maximal run of two or more adjacent superscript spans
produced from citation markers is replaced by exactly one superscript
span containing the distinct citation indices, deduplicated, sorted in
strictly ascending numeric order, joined by commas with no spaces; a
single remaining distinct index yields a span with that one integer.
In particular indices [5,3,8] yield `<sup>3,5,8</sup>` and [5,3,5]
yield `<sup>3,5</sup>`. -/
theorem c1_runs_consolidated :
    (∀ ms : List MarkerData, 2 ≤ ms.length → (∀ m ∈ ms, wfMarker m) →
      ∃ ns : List Nat, ns ≠ [] ∧ ascending ns = true ∧
        (∀ n, n ∈ ns ↔ n ∈ ms.map (fun m => parseNat m.c)) ∧
        convert_citations_to_superscript (String.mk (renderGroup ms))
          = String.mk (supOpen ++ List.intercalate [',']
              (ns.map (fun n => (Nat.repr n).data)) ++ supClose)) ∧
    convert_citations_to_superscript "【1:5†s】【1:3†s】【1:8†s】" = "<sup>3,5,8</sup>" ∧
    convert_citations_to_superscript "【1:5†s】【1:3†s】【1:5†s】" = "<sup>3,5</sup>" := by
  refine ⟨?_, by decide, by decide⟩
  intro ms h2 hms
  have hinert : inertProse ([] : List Char) := ⟨by simp, by simp⟩
  have e : renderGroup ms = renderDoc [] [] ms [] := by simp [renderDoc]
  have hconv : stage2 (stage1 (renderGroup ms)) = tokenOf ms := by
    rw [e, convert_doc [] hinert [] (by simp) ms hms [] hinert]
    simp
  have htok : tokenOf ms = consolidate_and_sort_citations (ms.map (fun m => m.c)) := by
    unfold tokenOf
    rw [if_pos h2]
  have hnonnil : ms.map (fun m => m.c) ≠ [] := by
    intro h0
    rw [List.map_eq_nil_iff] at h0
    rw [h0] at h2
    simp at h2
  obtain ⟨ns, hne, hasc, hmem, hrend⟩ :=
    consolidate_spec (ms.map (fun m => m.c)) hnonnil
  refine ⟨ns, hne, hasc, ?_, ?_⟩
  · intro n
    rw [hmem n, List.map_map]
    exact Iff.rfl
  · rw [convert_eq,
      show (String.mk (renderGroup ms)).data = renderGroup ms from rfl,
      hconv, htok, hrend]

theorem c1_witness :
    2 ≤ ([⟨['1'], ['5'], ['s']⟩, ⟨['2'], ['3'], ['s']⟩] : List MarkerData).length ∧
    (∀ m ∈ ([⟨['1'], ['5'], ['s']⟩, ⟨['2'], ['3'], ['s']⟩] : List MarkerData), wfMarker m) ∧
    ∃ ns : List Nat, ns ≠ [] ∧ ascending ns = true ∧
      (∀ n, n ∈ ns ↔ n ∈ ([⟨['1'], ['5'], ['s']⟩, ⟨['2'], ['3'], ['s']⟩] : List MarkerData).map
        (fun m => parseNat m.c)) ∧
      convert_citations_to_superscript
          (String.mk (renderGroup [⟨['1'], ['5'], ['s']⟩, ⟨['2'], ['3'], ['s']⟩]))
        = String.mk (supOpen ++ List.intercalate [',']
            (ns.map (fun n => (Nat.repr n).data)) ++ supClose) :=
  ⟨by decide, by decide,
    c1_runs_consolidated.1 [⟨['1'], ['5'], ['s']⟩, ⟨['2'], ['3'], ['s']⟩]
      (by decide) (by decide)⟩

/-- C2 counterexample: the input `<sup>2</sup><sup>1</sup>` contains no
citation-marker substring, yet the function does not return it
unchanged — Stage 2 consolidates the pre-existing adjacent spans. -/
theorem c2_counterexample :
    hasMarker ("<sup>2</sup><sup>1</sup>".data) = false ∧
    convert_citations_to_superscript "<sup>2</sup><sup>1</sup>" = "<sup>1,2</sup>" ∧
    ("<sup>1,2</sup>" : String) ≠ "<sup>2</sup><sup>1</sup>" :=
  ⟨by decide, by decide, by decide⟩

/-- C2 (amended): the empty string maps to the empty string, and every
input that contains no citation-marker substring and no run of adjacent
superscript spans matching the consolidation pattern is returned
unchanged. -/
theorem c2_identity :
    convert_citations_to_superscript "" = "" ∧
    ∀ s : String, hasMarker s.data = false → hasRun s.data = false →
      convert_citations_to_superscript s = s := by
  refine ⟨rfl, ?_⟩
  intro s h1 h2
  rw [convert_eq, stage1_id_of_no_marker h1, stage2_id_of_no_run h2]

theorem c2_witness :
    hasMarker "abc".data = false ∧ hasRun "abc".data = false ∧
    convert_citations_to_superscript "abc" = "abc" :=
  ⟨by decide, by decide, c2_identity.2 "abc" (by decide) (by decide)⟩

/-- C4: the function is total (the embedding is a total function), and
any text with no substring matching the full marker pattern is left
untouched by marker replacement; malformed or partial markers —
unmatched opening or closing bracket, missing dagger, missing index —
fail the pattern and pass through verbatim. -/
theorem c4_total_malformed :
    (∀ s : String, hasMarker s.data = false → stage1 s.data = s.data) ∧
    convert_citations_to_superscript "【1:2†source" = "【1:2†source" ∧
    convert_citations_to_superscript "1:2†source】" = "1:2†source】" ∧
    convert_citations_to_superscript "【1:2source】" = "【1:2source】" ∧
    convert_citations_to_superscript "【1:†source】" = "【1:†source】" ∧
    convert_citations_to_superscript "【:5†source】" = "【:5†source】" :=
  ⟨fun _ h => stage1_id_of_no_marker h, by decide, by decide, by decide,
    by decide, by decide⟩

theorem c4_witness :
    hasMarker "【1:2†source".data = false ∧
    stage1 "【1:2†source".data = "【1:2†source".data :=
  ⟨by decide, c4_total_malformed.1 "【1:2†source" (by decide)⟩

/-- C7: a single well-formed marker `【g:c†tag】` embedded in inert
context is replaced by exactly `<sup>c</sup>` in place, with the
surrounding text verbatim; the spec's two-marker example holds. -/
theorem c7_single_marker :
    (∀ (p0 p1 : List Char) (m : MarkerData),
      inertProse p0 → inertProse p1 → wfMarker m →
      convert_citations_to_superscript (String.mk (p0 ++ renderMarker m ++ p1))
        = String.mk (p0 ++ replacement m.c ++ p1)) ∧
    convert_citations_to_superscript "First 【1:3†source】 and second 【2:7†source】 citations."
      = "First <sup>3</sup> and second <sup>7</sup> citations." := by
  refine ⟨?_, by decide⟩
  intro p0 p1 m hp0 hp1 hm
  have e : p0 ++ renderMarker m ++ p1 = renderDoc p0 [] [m] p1 := by
    simp [renderDoc, renderGroup]
  rw [convert_eq,
    show (String.mk (p0 ++ renderMarker m ++ p1)).data = p0 ++ renderMarker m ++ p1 from rfl,
    e, convert_doc p0 hp0 [] (by simp) [m] (by simpa using hm) p1 hp1]
  simp [tokenOf]

theorem c7_witness :
    inertProse "A ".data ∧ inertProse " B".data ∧
    wfMarker ⟨['1'], ['2', '3'], ['s']⟩ ∧
    convert_citations_to_superscript
        (String.mk ("A ".data ++ renderMarker ⟨['1'], ['2', '3'], ['s']⟩ ++ " B".data))
      = String.mk ("A ".data ++ replacement ['2', '3'] ++ " B".data) :=
  ⟨by decide, by decide, by decide,
    c7_single_marker.1 "A ".data " B".data ⟨['1'], ['2', '3'], ['s']⟩
      (by decide) (by decide) (by decide)⟩

/-- C3 counterexample: on the marker-free input `<sup>5,2</sup>` the
function returns the input, so the output contains a superscript token
whose integers (5, 2) are not in ascending order — the invariant fails
for tokens that do not originate from citation markers. -/
theorem c3_counterexample :
    convert_citations_to_superscript "<sup>5,2</sup>" = "<sup>5,2</sup>" ∧
    ascending [parseNat ['5'], parseNat ['2']] = false :=
  ⟨by decide, by decide⟩

/-- C3 (amended): for inputs built from citation-marker groups
interspersed with inert prose (no marker glyph, no `<`, and
run-breaking between groups), each group is replaced in place by its
token, so the relative order of distinct output tokens matches the
order the groups' constituent markers first appear in the input; and
every consolidated token lists its integers deduplicated in strictly
ascending order. -/
theorem c3_order_invariant :
    (∀ (p0 : List Char) (chunks : List (List MarkerData × List Char))
        (gf : List MarkerData) (pf : List Char),
      inertProse p0 →
      (∀ gp ∈ chunks, (∀ m ∈ gp.1, wfMarker m) ∧ inertProse gp.2 ∧ sepOK gp.2 = false) →
      (∀ m ∈ gf, wfMarker m) → inertProse pf →
      convert_citations_to_superscript (String.mk (renderDoc p0 chunks gf pf))
        = String.mk (p0 ++ (chunks.map (fun gp => tokenOf gp.1 ++ gp.2)).flatten
            ++ tokenOf gf ++ pf)) ∧
    (∀ ds : List (List Char), ds ≠ [] →
      ∃ ns : List Nat, ns ≠ [] ∧ ascending ns = true ∧
        (∀ n, n ∈ ns ↔ n ∈ ds.map parseNat) ∧
        consolidate_and_sort_citations ds
          = supOpen ++ List.intercalate [',']
              (ns.map (fun n => (Nat.repr n).data)) ++ supClose) := by
  constructor
  · intro p0 chunks gf pf hp0 hch hgf hpf
    rw [convert_eq,
      show (String.mk (renderDoc p0 chunks gf pf)).data = renderDoc p0 chunks gf pf from rfl,
      convert_doc p0 hp0 chunks hch gf hgf pf hpf]
  · exact consolidate_spec

theorem c3_witness :
    inertProse "A ".data ∧
    (∀ gp ∈ ([([⟨['1'], ['5'], ['s']⟩, ⟨['1'], ['3'], ['s']⟩], " and ".data)] :
        List (List MarkerData × List Char)),
      (∀ m ∈ gp.1, wfMarker m) ∧ inertProse gp.2 ∧ sepOK gp.2 = false) ∧
    (∀ m ∈ ([⟨['2'], ['7'], ['t']⟩] : List MarkerData), wfMarker m) ∧
    inertProse ".".data ∧
    convert_citations_to_superscript (String.mk (renderDoc "A ".data
        [([⟨['1'], ['5'], ['s']⟩, ⟨['1'], ['3'], ['s']⟩], " and ".data)]
        [⟨['2'], ['7'], ['t']⟩] ".".data))
      = String.mk ("A ".data
          ++ (([([⟨['1'], ['5'], ['s']⟩, ⟨['1'], ['3'], ['s']⟩], " and ".data)] :
              List (List MarkerData × List Char)).map
                (fun gp => tokenOf gp.1 ++ gp.2)).flatten
          ++ tokenOf [⟨['2'], ['7'], ['t']⟩] ++ ".".data) :=
  ⟨by decide, by decide, by decide, by decide,
    c3_order_invariant.1 "A ".data
      [([⟨['1'], ['5'], ['s']⟩, ⟨['1'], ['3'], ['s']⟩], " and ".data)]
      [⟨['2'], ['7'], ['t']⟩] ".".data
      (by decide) (by decide) (by decide) (by decide)⟩

/-- C5: two spans consolidate into one run exactly when the text
between them matches `\s*,?\s*` (optional whitespace around at most one
comma); any other inert separator leaves both spans untouched, so
prose-separated groups never merge. -/
theorem c5_run_grammar :
    (∀ (sep d1 d2 : List Char), inertProse sep → wfDigits d1 → wfDigits d2 →
      convert_citations_to_superscript (String.mk (replacement d1 ++ sep ++ replacement d2))
        = if sepOK sep = true
          then String.mk (consolidate_and_sort_citations [d1, d2])
          else String.mk (replacement d1 ++ sep ++ replacement d2)) ∧
    convert_citations_to_superscript "<sup>5</sup>, <sup>3</sup>" = "<sup>3,5</sup>" ∧
    convert_citations_to_superscript "<sup>5</sup> and <sup>3</sup>"
      = "<sup>5</sup> and <sup>3</sup>" ∧
    convert_citations_to_superscript "<sup>5</sup>,,<sup>3</sup>"
      = "<sup>5</sup>,,<sup>3</sup>" := by
  refine ⟨?_, by decide, by decide, by decide⟩
  intro sep d1 d2 hsep hd1 hd2
  have hopen : '【' ∉ replacement d1 ++ sep ++ replacement d2 := by
    intro hm
    rcases List.mem_append.mp hm with hm | hm
    · rcases List.mem_append.mp hm with hm | hm
      · exact no_open_replacement hd1.2 hm
      · exact hsep.1 hm
    · exact no_open_replacement hd2.2 hm
  rw [convert_eq,
    show (String.mk (replacement d1 ++ sep ++ replacement d2)).data
      = replacement d1 ++ sep ++ replacement d2 from rfl,
    stage1_inert hopen]
  by_cases hOK : sepOK sep = true
  · rw [if_pos hOK]
    have e : replacement d1 ++ sep ++ replacement d2
        = replacement d1 ++ renderRunTail [(sep, d2)] [] := by
      simp [renderRunTail]
    have hps : ∀ sd ∈ ([(sep, d2)] : List (List Char × List Char)),
        sepOK sd.1 = true ∧ wfDigits sd.2 := by
      intro sd hsd
      rcases List.mem_cons.mp hsd with rfl | hsd
      · exact ⟨hOK, hd2⟩
      · simp at hsd
    rw [e, stage2_run hd1 [(sep, d2)] hps (by simp) matchSep_nil, stage2_nil]
    simp
  · rw [if_neg hOK]
    have hOK' : sepOK sep = false := Bool.eq_false_iff.mpr hOK
    have hbreak : matchSep (sep ++ replacement d2) = none :=
      matchSep_break hsep.2 hOK' _
    have hlast : stage2 (replacement d2) = replacement d2 := by
      conv_lhs => rw [show replacement d2 = replacement d2 ++ [] by simp]
      rw [stage2_lone_sup hd2 matchSep_nil, stage2_nil]
      simp
    rw [List.append_assoc, stage2_lone_sup hd1 hbreak, stage2_skip sep hsep.2, hlast,
      ← List.append_assoc]

theorem c5_witness :
    inertProse ", ".data ∧ wfDigits ['5'] ∧ wfDigits ['3'] ∧
    convert_citations_to_superscript
        (String.mk (replacement ['5'] ++ ", ".data ++ replacement ['3']))
      = if sepOK ", ".data = true
        then String.mk (consolidate_and_sort_citations [['5'], ['3']])
        else String.mk (replacement ['5'] ++ ", ".data ++ replacement ['3']) :=
  ⟨by decide, by decide, by decide,
    c5_run_grammar.1 ", ".data ['5'] ['3'] (by decide) (by decide) (by decide)⟩

/-- C6 counterexample: a span already containing a comma-separated list
(`<sup>1,2</sup>`) adjacent to a single-integer span is not part of any
run — the text is returned unchanged instead of consolidating to
`<sup>1,2,3</sup>`, because the run pattern only admits `\d+` spans. -/
theorem c6_counterexample :
    convert_citations_to_superscript "<sup>1,2</sup><sup>3</sup>"
      = "<sup>1,2</sup><sup>3</sup>" ∧
    ("<sup>1,2</sup><sup>3</sup>" : String) ≠ "<sup>1,2,3</sup>" :=
  ⟨by decide, by decide⟩

/-- C6 (amended): within every matched run all spans' digit groups are
extracted and contribute, in order; but every span of a run is a pure
digit group (`\d+`), so spans already containing comma-separated lists
never participate in a run and pass through unchanged. -/
theorem c6_run_extraction :
    (∀ (l : List Char) (ds : List (List Char)) (r : List Char),
      matchRun l = some (ds, r) → ∀ d ∈ ds, d ≠ [] ∧ ∀ c ∈ d, isDigitC c = true) ∧
    (∀ (d0 : List Char) (ps : List (List Char × List Char)) (r : List Char),
      wfDigits d0 → (∀ sd ∈ ps, sepOK sd.1 = true ∧ wfDigits sd.2) → ps ≠ [] →
      matchSep r = none →
      matchRun (replacement d0 ++ renderRunTail ps r)
        = some (d0 :: ps.map Prod.snd, r)) ∧
    convert_citations_to_superscript "<sup>1,2</sup><sup>3</sup>"
      = "<sup>1,2</sup><sup>3</sup>" := by
  refine ⟨?_, ?_, by decide⟩
  · intro l ds r h
    exact matchRun_digits h
  · intro d0 ps r hd0 hps hne hr
    exact matchRun_run hd0 ps hps hne hr

theorem c6_witness :
    wfDigits ['1'] ∧
    (∀ sd ∈ ([(([] : List Char), ['2'])] : List (List Char × List Char)),
      sepOK sd.1 = true ∧ wfDigits sd.2) ∧
    ([(([] : List Char), ['2'])] : List (List Char × List Char)) ≠ [] ∧
    matchSep [] = none ∧
    matchRun (replacement ['1'] ++ renderRunTail [(([] : List Char), ['2'])] [])
      = some (['1'] :: ([(([] : List Char), ['2'])] :
          List (List Char × List Char)).map Prod.snd, []) :=
  ⟨by decide, by decide, by decide, by decide,
    c6_run_extraction.2.1 ['1'] [([], ['2'])] []
      (by decide) (by decide) (by decide) (by decide)⟩

/-- C9 counterexample: for the marker `【1:01†s】` adjacent to another
marker, the digit-string index `01` is not preserved exactly — after
consolidation it is re-rendered canonically as `1`, so the claim fails
for arbitrary decimal digit strings. -/
theorem c9_counterexample :
    convert_citations_to_superscript "【1:01†s】【1:2†s】" = "<sup>1,2</sup>" ∧
    containsSeq "01".data "【1:01†s】【1:2†s】".data = true ∧
    containsSeq "01".data
      (convert_citations_to_superscript "【1:01†s】【1:2†s】").data = false :=
  ⟨by decide, by decide, by decide⟩

/-- C9 (amended): citation indices are parsed as unsigned decimal
naturals with no enforced upper bound: for every value `n : Nat`, a lone
marker whose index is the decimal rendering of `n` keeps that rendering
exactly in the output; large consolidated indices (123, 456, 1234) are
preserved without truncation, while indices with leading zeros may be
re-rendered canonically when consolidated. -/
theorem c9_decimal_indices :
    (∀ (n : Nat) (p0 p1 g tag : List Char),
      inertProse p0 → inertProse p1 → g ≠ [] → (∀ c ∈ g, isDigitC c = true) →
      tag ≠ [] → (∀ c ∈ tag, isWordC c = true) →
      convert_citations_to_superscript
          (String.mk (p0 ++ renderMarker ⟨g, (Nat.repr n).data, tag⟩ ++ p1))
        = String.mk (p0 ++ replacement (Nat.repr n).data ++ p1)) ∧
    convert_citations_to_superscript "Text 【99:123†source】【100:456†source】 here."
      = "Text <sup>123,456</sup> here." ∧
    convert_citations_to_superscript "a【1:1234†s】b" = "a<sup>1234</sup>b" := by
  refine ⟨?_, by decide, by decide⟩
  intro n p0 p1 g tag hp0 hp1 hg hgd ht htw
  have hm : wfMarker ⟨g, (Nat.repr n).data, tag⟩ :=
    ⟨hg, hgd, (repr_wfDigits n).1, (repr_wfDigits n).2, ht, htw⟩
  have e : p0 ++ renderMarker ⟨g, (Nat.repr n).data, tag⟩ ++ p1
      = renderDoc p0 [] [⟨g, (Nat.repr n).data, tag⟩] p1 := by
    simp [renderDoc, renderGroup]
  rw [convert_eq,
    show (String.mk (p0 ++ renderMarker ⟨g, (Nat.repr n).data, tag⟩ ++ p1)).data
      = p0 ++ renderMarker ⟨g, (Nat.repr n).data, tag⟩ ++ p1 from rfl,
    e, convert_doc p0 hp0 [] (by simp) _ (by simpa using hm) p1 hp1]
  simp [tokenOf]

theorem c9_witness :
    inertProse "a".data ∧ inertProse "b".data ∧
    (['1'] : List Char) ≠ [] ∧ (∀ c ∈ (['1'] : List Char), isDigitC c = true) ∧
    (['s'] : List Char) ≠ [] ∧ (∀ c ∈ (['s'] : List Char), isWordC c = true) ∧
    convert_citations_to_superscript
        (String.mk ("a".data ++ renderMarker ⟨['1'], (Nat.repr 1234).data, ['s']⟩ ++ "b".data))
      = String.mk ("a".data ++ replacement (Nat.repr 1234).data ++ "b".data) :=
  ⟨by decide, by decide, by decide, by decide, by decide, by decide,
    c9_decimal_indices.1 1234 "a".data "b".data ['1'] ['s']
      (by decide) (by decide) (by decide) (by decide) (by decide) (by decide)⟩

/-- C8: the registry maps each annotation url to its title, defaulting
to the url when the title is absent; duplicate urls collapse to exactly
one entry whose title is the last-seen one; the insertion order of
first-seen urls is preserved; and a single `(url="u1", title=None)`
annotation yields `{"u1": "u1"}`. -/
theorem c8_registry :
    extract_citations_from_annotations [⟨⟨"u1", none⟩⟩] = [("u1", "u1")] ∧
    (∀ anns : List Annotation,
      ((extract_citations_from_annotations anns).map Prod.fst).Nodup) ∧
    (∀ anns : List Annotation,
      (extract_citations_from_annotations anns).map Prod.fst
        = dedupFirst (anns.map (fun a => a.url_citation.url))) ∧
    (∀ (anns : List Annotation) (u : String),
      List.lookup u (extract_citations_from_annotations anns)
        = Option.map (fun a => orTitle a.url_citation.title a.url_citation.url)
            ((anns.filter (fun a => a.url_citation.url == u)).getLast?)) := by
  have hkeys : ∀ anns : List Annotation,
      (extract_citations_from_annotations anns).map Prod.fst
        = dedupFirst (anns.map (fun a => a.url_citation.url)) := by
    intro anns
    have := extract_keys_aux anns []
    simpa [extract_citations_from_annotations, dedupFirst] using this
  refine ⟨by decide, ?_, hkeys, ?_⟩
  · intro anns
    rw [hkeys anns]
    exact (dedupFirstAux_nodup (anns.map (fun a => a.url_citation.url)) []).1
  · intro anns u
    induction anns using List.reverseRecOn with
    | nil => rfl
    | append_singleton l a ih =>
      have hext : extract_citations_from_annotations (l ++ [a])
          = dictInsert (extract_citations_from_annotations l) a.url_citation.url
              (orTitle a.url_citation.title a.url_citation.url) := by
        simp [extract_citations_from_annotations, List.foldl_append]
      rw [hext, lookup_dictInsert, List.filter_append]
      by_cases hau : a.url_citation.url = u
      · have hf : (([a] : List Annotation).filter (fun a => a.url_citation.url == u))
            = [a] := by
          simp [List.filter, hau]
        rw [hf, List.getLast?_concat, if_pos hau.symm]
        rfl
      · have hbeq : (a.url_citation.url == u) = false := by simpa using hau
        have hf : (([a] : List Annotation).filter (fun a => a.url_citation.url == u))
            = [] := by
          simp [List.filter, hbeq]
        rw [hf, List.append_nil, if_neg (fun h => hau h.symm), ih]

/-- C10: formatting an empty mapping yields the literal string
`No citations found.`; a non-empty mapping yields one line per entry of
the form `i. [title](url)`, 1-indexed in mapping order, joined by
newlines. -/
theorem c10_display :
    format_citations_for_display [] = "No citations found." ∧
    ∀ cs : List (String × String), cs ≠ [] →
      format_citations_for_display cs
        = String.intercalate "\n" (formatLines 1 cs) := by
  refine ⟨rfl, ?_⟩
  intro cs hne
  unfold format_citations_for_display
  rw [if_neg (by simpa using hne)]
  rw [show cs.enum = cs.enumFrom 0 from rfl, enumFrom_formatLines cs 0]

theorem c10_witness :
    ([("u", "T")] : List (String × String)) ≠ [] ∧
    format_citations_for_display [("u", "T")]
      = String.intercalate "\n" (formatLines 1 [("u", "T")]) :=
  ⟨by decide, c10_display.2 [("u", "T")] (by decide)⟩

end Citations
